import Mathlib

/-!
Verification development for the `githubclient` package of the spr repository
(stacked-pull-request tool). Every definition below is a shallow embedding of
a function in `src/github/githubclient/client.go`; the Go line numbers are
given in the doc comments. Strings stay strings, slices become `List`,
in-place slice mutation becomes explicit list rebuilding, and `nil`-able
values become `Option`.
-/

namespace Spr

/-- Embeds `git.Commit` (used via the `Commit` field of a pull request):
a short content-derived fingerprint, the full hash, the subject line and the
free-text body. Go struct equality (`==` on `git.Commit` at client.go:330)
is field-wise equality, which `DecidableEq` mirrors. -/
structure Commit where
  CommitID : String
  CommitHash : String
  Subject : String
  Body : String
deriving DecidableEq, Repr, Inhabited

/-- Embeds the `github.checkStatus` enumeration (`CheckStatusUnknown`,
`CheckStatusPending`, `CheckStatusFail`, `CheckStatusPass`) referenced at
client.go:212-219. The type itself lives in the `github` package, outside
the given source file; only its four constants are used there. -/
inductive CheckStatus where
  | Unknown
  | Pending
  | Fail
  | Pass
deriving DecidableEq, Repr, Inhabited

/-- Embeds `github.PullRequestMergeStatus`: the three independent merge
signals plus the derived `Stacked` flag (client.go:222-226, 537-544). -/
structure PullRequestMergeStatus where
  ChecksPass : CheckStatus
  ReviewApproved : Bool
  NoConflicts : Bool
  Stacked : Bool
deriving DecidableEq, Repr, Inhabited

/-- Embeds `github.PullRequest` as used throughout client.go: remote id,
display number, title, the branch it merges from (`HeadRefName`) and into
(`BaseRefName`), the associated commit and the merge status. -/
structure PullRequest where
  ID : String
  Number : Int
  Title : String
  FromBranch : String
  ToBranch : String
  Commit : Commit
  MergeStatus : PullRequestMergeStatus
deriving DecidableEq, Repr, Inhabited

/-- Embeds `github.GitHubInfo` as assembled at client.go:235-240. -/
structure GitHubInfo where
  UserName : String
  RepositoryID : String
  LocalBranch : String
  PullRequests : List PullRequest
deriving DecidableEq, Repr, Inhabited

/-- Modelled from the spec: `pr.Ready(config)` (client.go:539) is a method of
the `github` package, whose source is not part of the given file. Spec §4.2:
an entry is individually ready when all three merge signals hold — checks
pass, review approved, no conflicts. -/
def Ready (pr : PullRequest) : Bool :=
  pr.MergeStatus.ChecksPass == CheckStatus.Pass
    && pr.MergeStatus.ReviewApproved
    && pr.MergeStatus.NoConflicts

/-- Embeds `branchNameFromCommit` (client.go:511-513). -/
def branchNameFromCommit (info : GitHubInfo) (commit : Commit) : String :=
  "pr/" ++ info.UserName ++ "/" ++ info.LocalBranch ++ "/" ++ commit.CommitID

/-- Embeds `GetRemoteBranchName` (client.go:500-509). The call
`getLocalBranchName(gitcmd)` shells out to git, so the local branch name it
returns is taken here as the `localBranchName` argument; the two config
fields read by the loop are the other arguments. The Go loop returns the
first configured remote branch equal to the local branch name, and falls
back to `repoConfig.GitHubBranch`. -/
def GetRemoteBranchName (localBranchName : String) (remoteBranches : List String)
    (githubBranch : String) : String :=
  match remoteBranches.find? (fun remoteBranchName => localBranchName == remoteBranchName) with
  | some remoteBranchName => remoteBranchName
  | none => githubBranch

/-- Embeds the `baseRefName` computation shared by `CreatePullRequest`
(client.go:284-287) and `UpdatePullRequest` (client.go:371-374):
start from `GetRemoteBranchName` and, when `prevCommit != nil`, replace it
with the encoded branch name of the previous commit. -/
def baseRefNameFor (localBranchName : String) (remoteBranches : List String)
    (githubBranch : String) (info : GitHubInfo) (prevCommit : Option Commit) : String :=
  match prevCommit with
  | none => GetRemoteBranchName localBranchName remoteBranches githubBranch
  | some prev => branchNameFromCommit info prev

/-- Embeds the body of the loop of `formatStackMarkdown` (client.go:329-338):
one `- #<number>` line per entry, with the marker appended when the entry's
commit equals (Go struct equality) the commit the body is generated for. -/
def prBullet (commit : Commit) (pr : PullRequest) : String :=
  "- #" ++ toString pr.Number ++ (if pr.Commit == commit then " ⬅" else "") ++ "\n"

/-- Embeds `formatStackMarkdown` (client.go:327-341). The Go loop runs the
index `i` from `len(stack)-1` down to `0`, writing one bullet per entry into
a buffer; iterating a slice from its last index to its first is a map over
the reversed list. -/
def formatStackMarkdown (commit : Commit) (stack : List PullRequest) : String :=
  String.join (stack.reverse.map (prBullet commit))

/-- Embeds `addManualMergeNotice` (client.go:358-362). -/
def addManualMergeNotice (body : String) : String :=
  body ++ "\n\n" ++
    "⚠️ *Part of a stack created by [spr](https://github.com/ejoffe/spr). " ++
    "Do not merge manually using the UI - doing so may have unexpected results.*"

/-- Embeds `formatBody` (client.go:343-356). `strings.TrimSpace` becomes
`String.trim` (both strip leading and trailing whitespace; Go additionally
strips a few rare Unicode space characters that no claim depends on). -/
def formatBody (commit : Commit) (stack : List PullRequest) : String :=
  if stack.length ≤ 1 then
    commit.Body.trim
  else if commit.Body == "" then
    "**Stack**:\n" ++ addManualMergeNotice (formatStackMarkdown commit stack)
  else
    commit.Body ++ "\n\n---\n\n**Stack**:\n" ++
      addManualMergeNotice (formatStackMarkdown commit stack)

/-- Embeds the check-rollup translation of `GetInfo` (client.go:212-220):
`checkStatus` starts as `CheckStatusFail` and is upgraded only for the two
recognized rollup states; a `nil` rollup (`Option.none`) keeps the default. -/
def checkStatusFromRollup (rollup : Option String) : CheckStatus :=
  match rollup with
  | none => CheckStatus.Fail
  | some state =>
    if state == "SUCCESS" then CheckStatus.Pass
    else if state == "PENDING" then CheckStatus.Pending
    else CheckStatus.Fail

/-- Embeds the `MergeStatus` assembly of `GetInfo` (client.go:212-226).
`ReviewApproved` is `node.ReviewDecision != nil && *node.ReviewDecision ==
"APPROVED"`; `NoConflicts` is `node.Mergeable == "MERGEABLE"`; the Go struct
literal leaves `Stacked` at its zero value `false`. -/
def mergeStatusOfNode (rollup : Option String) (reviewDecision : Option String)
    (mergeable : String) : PullRequestMergeStatus :=
  { ChecksPass := checkStatusFromRollup rollup
    ReviewApproved := match reviewDecision with
      | some decision => decision == "APPROVED"
      | none => false
    NoConflicts := mergeable == "MERGEABLE"
    Stacked := false }

/-- Character class `[a-zA-Z0-9_\-]` of `BranchNameRegex` (client.go:176):
the characters allowed in the user component of a structured branch name. -/
def isUserChar (c : Char) : Bool :=
  ('a' ≤ c && c ≤ 'z') || ('A' ≤ c && c ≤ 'Z') || ('0' ≤ c && c ≤ '9')
    || c == '_' || c == '-'

/-- Character class of the first capture group of `BranchNameRegex`
(client.go:176): the user class plus slash and dot, the characters allowed
in the local-branch component. -/
def isBranchChar (c : Char) : Bool :=
  isUserChar c || c == '/' || c == '.'

/-- Character class `[a-f0-9]` of `BranchNameRegex` (client.go:176):
lowercase hexadecimal fingerprint characters. -/
def isHexChar (c : Char) : Bool :=
  ('a' ≤ c && c ≤ 'f') || ('0' ≤ c && c ≤ '9')

/-- Embeds a match attempt of `BranchNameRegex` (client.go:176) — literal
`pr`, slash, one or more user characters, slash, the first capture group of
one or more branch characters, slash, the second capture group of exactly
eight hex characters, end of string — attempted here
anchored at the start of `cs` (the regex itself is only end-anchored; the
start positions are tried by `findMatch` below). The regex is deterministic
once anchored: the user class excludes `/`, so the greedy `+` must stop at
the first `/` after it; and because the pattern ends with `/` plus exactly
eight fingerprint characters followed by `$`, the only possible split point
for the greedy branch group is nine characters before the end of the
string. Returns the two capture groups `(matches[1], matches[2])`. -/
def matchAt (cs : List Char) : Option (List Char × List Char) :=
  match cs with
  | c1 :: c2 :: c3 :: rest =>
    if c1 == 'p' && c2 == 'r' && c3 == '/' then
      let user := rest.takeWhile isUserChar
      let afterUser := rest.dropWhile isUserChar
      if user.isEmpty then none
      else
        match afterUser with
        | sep1 :: tail =>
          if sep1 == '/' && 10 ≤ tail.length then
            let group1 := tail.take (tail.length - 9)
            match tail.drop (tail.length - 9) with
            | sep2 :: fingerprint =>
              if sep2 == '/' && group1.all isBranchChar && fingerprint.all isHexChar
                  && fingerprint.length == 8 then
                some (group1, fingerprint)
              else none
            | [] => none
          else none
        | [] => none
    else none
  | _ => none

/-- Embeds `BranchNameRegex.FindStringSubmatch` (client.go:202): Go's regexp
returns the leftmost match, so the match is attempted at every start
position, earliest first. -/
def findMatch : List Char → Option (List Char × List Char)
  | [] => none
  | c :: cs =>
    match matchAt (c :: cs) with
    | some r => some r
    | none => findMatch cs

/-- Embeds the decoding step of `GetInfo` (client.go:202): match the head
branch name against `BranchNameRegex`, yielding the local-branch capture
`matches[1]` and the fingerprint capture `matches[2]`, or `none` when the
name was not produced by this codec. -/
def decodeBranch (s : String) : Option (String × String) :=
  (findMatch s.data).map (fun groups => (String.mk groups.1, String.mk groups.2))

/-- Embeds the relevant fields of one node of the `PullRequests` GraphQL
response consumed by `GetInfo` (client.go:190-228): `node.Repository.Id`,
`node.Id`, `node.Number`, `node.Title`, `node.HeadRefName`,
`node.BaseRefName`, and the head commit `(*node.Commits.Nodes)[0].Commit`
with its rollup, plus `node.ReviewDecision` and `node.Mergeable`. -/
structure PullRequestNode where
  repositoryId : String
  id : String
  number : Int
  title : String
  headRefName : String
  baseRefName : String
  commitOid : String
  commitMessageHeadline : String
  commitMessageBody : String
  statusCheckRollupState : Option String
  reviewDecision : Option String
  mergeable : String
deriving DecidableEq, Repr, Inhabited

/-- Embeds the conversion of one accepted node into a `github.PullRequest`
(client.go:194-228), with `fp` the fingerprint capture `matches[2]`. -/
def mkPullRequestOfNode (node : PullRequestNode) (fp : String) : PullRequest :=
  { ID := node.id
    Number := node.number
    Title := node.title
    FromBranch := node.headRefName
    ToBranch := node.baseRefName
    Commit :=
      { CommitID := fp
        CommitHash := node.commitOid
        Subject := node.commitMessageHeadline
        Body := node.commitMessageBody }
    MergeStatus := mergeStatusOfNode node.statusCheckRollupState
      node.reviewDecision node.mergeable }

/-- Embeds the per-node body of the `GetInfo` loop (client.go:190-230):
skip nodes from other repositories (`continue` at client.go:191-193), then
append the converted pull request only when the head branch name matches
`BranchNameRegex` and the decoded local-branch capture equals the currently
checked-out branch (`matches != nil && matches[1] == branchname`). -/
def selectNode (repoId branchname : String) (node : PullRequestNode) : Option PullRequest :=
  if repoId == node.repositoryId then
    match decodeBranch node.headRefName with
    | some (localBranch, fp) =>
      if localBranch == branchname then some (mkPullRequestOfNode node fp) else none
    | none => none
  else none

/-- Embeds the full filtering loop of `GetInfo` (client.go:189-230): the
list of accepted pull requests, in response order, that is subsequently
handed to `sortPullRequests` (client.go:233). -/
def selectPullRequests (repoId branchname : String)
    (nodes : List PullRequestNode) : List PullRequest :=
  nodes.filterMap (selectNode repoId branchname)

/-- Embeds the `swap` closure of `sortPullRequests` (client.go:520-524):
exchange the slice entries at positions `i` and `j`. On a list this is two
`set` operations; the Go code only ever calls it with in-range indices, and
out-of-range indices leave the list unchanged here. -/
def swapL (l : List PullRequest) (i j : Nat) : List PullRequest :=
  match l.get? i, l.get? j with
  | some a, some b => (l.set i b).set j a
  | _, _ => l

/-- Recursion core of `findFrom`; the structural argument `fuel` counts the
remaining iterations of the scan and equals `prs.length - j` at every call,
so the zero-fuel arm is reached exactly when `j` has run off the slice. -/
def findFromGo (prs : List PullRequest) (targetBranch : String) (j : Nat) :
    Nat → Option Nat
  | 0 => none
  | fuel + 1 =>
    if h : j < prs.length then
      if (prs.get ⟨j, h⟩).ToBranch == targetBranch then some j
      else findFromGo prs targetBranch (j + 1) fuel
    else none

/-- Embeds the inner scan of `sortPullRequests` (client.go:528-534): the
first index `j` at or after the given start with `prs[j].ToBranch ==
targetBranch`, or `none` when the scan runs off the end of the slice.
`findFrom_rec` below recovers the loop-shaped unfolding. -/
def findFrom (prs : List PullRequest) (targetBranch : String) (j : Nat) : Option Nat :=
  findFromGo prs targetBranch j (prs.length - j)

/-- Recursion core of `sortLoop`; the structural argument `fuel` counts the
remaining iterations of the outer loop and equals `prs.length - i` at every
call (the swap preserves the slice length), so the zero-fuel arm is reached
exactly when `i` has run off the slice. -/
def sortLoopGo (prs : List PullRequest) (targetBranch : String) (i : Nat) :
    Nat → List PullRequest
  | 0 => prs
  | fuel + 1 =>
    if i < prs.length then
      match findFrom prs targetBranch i with
      | some j =>
        sortLoopGo (swapL prs i j) (prs.getD j default).FromBranch (i + 1) fuel
      | none => sortLoopGo prs targetBranch (i + 1) fuel
    else prs

/-- Embeds the outer loop of `sortPullRequests` (client.go:526-535): for
each position `i`, scan the remaining entries for the one whose `ToBranch`
equals the current target; when found, advance the target to that entry's
`FromBranch` and swap it into position `i`; when the scan finds nothing the
position is left as is and the loop moves on with the same target.
`sortLoop_rec` below recovers the loop-shaped unfolding. -/
def sortLoop (prs : List PullRequest) (targetBranch : String) (i : Nat) : List PullRequest :=
  sortLoopGo prs targetBranch i (prs.length - i)

/-- Embeds the assignment `pr.MergeStatus.Stacked = true` (client.go:540). -/
def setStackedTrue (pr : PullRequest) : PullRequest :=
  { pr with MergeStatus := { pr.MergeStatus with Stacked := true } }

/-- Embeds the stacked-flag loop of `sortPullRequests` (client.go:537-544):
walk the ordered entries, setting `Stacked` to `true` while `pr.Ready`
holds, and `break` at the first entry that is not ready, leaving it and
everything after it untouched. The readiness predicate is passed as a
function argument: the Go code calls `pr.Ready(config)`, a method of the
`github` package defined outside the given source file (see `Ready`). -/
def markStacked (ready : PullRequest → Bool) : List PullRequest → List PullRequest
  | [] => []
  | pr :: rest =>
    if ready pr then setStackedTrue pr :: markStacked ready rest
    else pr :: rest

/-- Embeds `sortPullRequests` (client.go:519-547): the chain-ordering loop
followed by the stacked-flag loop, returning the rearranged slice. The
`config` parameter of the Go function is consumed only through
`pr.Ready(config)` and is represented by the `ready` argument. -/
def sortPullRequests (ready : PullRequest → Bool) (prs : List PullRequest)
    (targetBranch : String) : List PullRequest :=
  markStacked ready (sortLoop prs targetBranch 0)

/-- Structural description of the inner scan on a suffix of the slice: the
first position in the list whose `ToBranch` equals the target. Used to
relate `sortLoop` to a recursion on lists. -/
def findPos (targetBranch : String) : List PullRequest → Option Nat
  | [] => none
  | p :: ps =>
    if p.ToBranch == targetBranch then some 0
    else (findPos targetBranch ps).map (· + 1)

/-- Structural description of the outer loop of `sortPullRequests` acting
on the not-yet-visited suffix of the slice: pick the first entry whose
`ToBranch` equals the target, move it to the front (displacing the old
front entry into its place, exactly as the swap does), and continue with
the target advanced to its `FromBranch`; when no entry matches, the front
entry stays and the scan continues behind it with the same target.
`sortLoop_eq` proves `sortLoop` equal to this description, and
`sortSuffix_cons` recovers the list-shaped unfolding; the structural
argument `fuel` of the core equals the list length at every call. -/
def sortSuffixGo (targetBranch : String) (l : List PullRequest) :
    Nat → List PullRequest
  | 0 => l
  | fuel + 1 =>
    match l with
    | [] => []
    | a :: t =>
      match findPos targetBranch (a :: t) with
      | some k =>
        (a :: t).getD k a ::
          sortSuffixGo ((a :: t).getD k a).FromBranch (((a :: t).set k a).tail) fuel
      | none => a :: sortSuffixGo targetBranch t fuel

/-- Structural description of the outer loop on the unvisited suffix; see
`sortSuffixGo`. -/
def sortSuffix (targetBranch : String) (l : List PullRequest) : List PullRequest :=
  sortSuffixGo targetBranch l l.length

/-- Connectivity of a candidate chain: `chainOK target q` states that the
entries of `q`, in order, thread the base/head linked list starting at
`target` — the first entry merges into `target` and every later entry
merges into its predecessor's head branch (spec §4.2). -/
def chainOK (targetBranch : String) : List PullRequest → Bool
  | [] => true
  | p :: ps => p.ToBranch == targetBranch && chainOK p.FromBranch ps

/-- The shape claimed for the engine's output (spec §8): the first entry
merges into the target branch and each later entry merges into the previous
entry's head branch. -/
def chainShape (targetBranch : String) (out : List PullRequest) : Prop :=
  (0 < out.length → (out.getD 0 default).ToBranch = targetBranch) ∧
  ∀ i, i + 1 < out.length →
    (out.getD (i + 1) default).ToBranch = (out.getD i default).FromBranch

/-! Concrete sample data used to exercise the theorems below on explicit
inputs (witnesses and counterexamples). -/

/-- Sample merge status: not individually ready (review not approved). -/
def msNotReady : PullRequestMergeStatus :=
  { ChecksPass := CheckStatus.Pass, ReviewApproved := false, NoConflicts := true
    Stacked := false }

/-- Sample merge status: individually ready, `Stacked` still false. -/
def msReady : PullRequestMergeStatus :=
  { ChecksPass := CheckStatus.Pass, ReviewApproved := true, NoConflicts := true
    Stacked := false }

/-- Sample merge status: individually ready with `Stacked` already true on
input. -/
def msPreStacked : PullRequestMergeStatus :=
  { ChecksPass := CheckStatus.Pass, ReviewApproved := true, NoConflicts := true
    Stacked := true }

/-- Sample commit with an eight-character lowercase hex fingerprint. -/
def sampleCommit : Commit :=
  { CommitID := "abcd1234", CommitHash := "hash1", Subject := "subject one"
    Body := " body one " }

/-- Sample pull request directly on top of `main`. -/
def prOne : PullRequest :=
  { ID := "id1", Number := 1, Title := "one", FromBranch := "pr/u/st/aaaa1111"
    ToBranch := "main", Commit := sampleCommit, MergeStatus := msNotReady }

/-- Sample pull request stacked on `prOne`. -/
def prTwo : PullRequest :=
  { ID := "id2", Number := 2, Title := "two", FromBranch := "pr/u/st/bbbb2222"
    ToBranch := "pr/u/st/aaaa1111"
    Commit := { CommitID := "bbbb2222", CommitHash := "hash2", Subject := "subject two"
                Body := "" }
    MergeStatus := msNotReady }

/-- Variant of `prTwo` whose `Stacked` flag is already true on input. -/
def prTwoPreStacked : PullRequest :=
  { prTwo with MergeStatus := msPreStacked }

/-- Disconnected sample entry: its base branch `offA` is not produced by any
entry of the sample inputs it appears in. -/
def prOffA : PullRequest :=
  { ID := "idA", Number := 11, Title := "offA", FromBranch := "headA"
    ToBranch := "offA", Commit := sampleCommit, MergeStatus := msNotReady }

/-- Second disconnected sample entry. -/
def prOffB : PullRequest :=
  { ID := "idB", Number := 12, Title := "offB", FromBranch := "headB"
    ToBranch := "offB", Commit := sampleCommit, MergeStatus := msNotReady }

/-- Sample entry on `main` whose head branch `danglingC` matches nothing. -/
def prOnMain : PullRequest :=
  { ID := "idC", Number := 13, Title := "onMain", FromBranch := "danglingC"
    ToBranch := "main", Commit := sampleCommit, MergeStatus := msNotReady }

/-- Sample response node whose head branch decodes to local branch `stack`. -/
def nodeGood : PullRequestNode :=
  { repositoryId := "R", id := "n1", number := 7, title := "good"
    headRefName := "pr/user/stack/abcd1234", baseRefName := "main"
    commitOid := "oid1", commitMessageHeadline := "subject one"
    commitMessageBody := "body"
    statusCheckRollupState := some "SUCCESS", reviewDecision := some "APPROVED"
    mergeable := "MERGEABLE" }

/-- Sample response node whose head branch is not produced by the codec. -/
def nodeBad : PullRequestNode :=
  { nodeGood with id := "n2", headRefName := "refs/heads/main" }

/-- Sample response node whose head branch decodes to a different local
branch (`other`). -/
def nodeOtherBranch : PullRequestNode :=
  { nodeGood with id := "n3", headRefName := "pr/user/other/abcd1234" }

/-! Theorems. -/

/-- Length is preserved by `swapL`. -/
theorem swapL_length (l : List PullRequest) (i j : Nat) :
    (swapL l i j).length = l.length := by
  unfold swapL
  cases h1 : l.get? i <;> cases h2 : l.get? j <;> simp

/-- The fuelled scan satisfies the loop-shaped recurrence of the Go inner
loop (client.go:528-534). -/
theorem findFrom_rec (prs : List PullRequest) (target : String) (j : Nat) :
    findFrom prs target j =
      if h : j < prs.length then
        if (prs.get ⟨j, h⟩).ToBranch == target then some j
        else findFrom prs target (j + 1)
      else none := by
  unfold findFrom
  cases hf : prs.length - j with
  | zero =>
    have hj : ¬ j < prs.length := by omega
    rw [dif_neg hj]
    rfl
  | succ n =>
    have hj : j < prs.length := by omega
    have hn : n = prs.length - (j + 1) := by omega
    rw [hn]
    rfl

/-- The fuelled outer loop satisfies the loop-shaped recurrence of the Go
outer loop (client.go:526-535). -/
theorem sortLoop_rec (prs : List PullRequest) (target : String) (i : Nat) :
    sortLoop prs target i =
      if i < prs.length then
        match findFrom prs target i with
        | some j => sortLoop (swapL prs i j) (prs.getD j default).FromBranch (i + 1)
        | none => sortLoop prs target (i + 1)
      else prs := by
  unfold sortLoop
  cases hf : prs.length - i with
  | zero =>
    have hi : ¬ i < prs.length := by omega
    rw [if_neg hi]
    rfl
  | succ n =>
    have hi : i < prs.length := by omega
    have hn : n = prs.length - (i + 1) := by omega
    rw [if_pos hi, sortLoopGo, if_pos hi]
    cases hff : findFrom prs target i with
    | some j =>
      dsimp only
      rw [swapL_length, hn]
    | none =>
      dsimp only
      rw [hn]

/-- The structural sort of the empty suffix is empty. -/
theorem sortSuffix_nil (target : String) : sortSuffix target [] = [] := rfl

/-- The fuelled structural sort satisfies the intended list-shaped
recurrence. -/
theorem sortSuffix_cons (target : String) (a : PullRequest) (t : List PullRequest) :
    sortSuffix target (a :: t) =
      match findPos target (a :: t) with
      | some k =>
        (a :: t).getD k a ::
          sortSuffix ((a :: t).getD k a).FromBranch (((a :: t).set k a).tail)
      | none => a :: sortSuffix target t := by
  unfold sortSuffix
  rw [List.length_cons, sortSuffixGo]
  cases hfp : findPos target (a :: t) with
  | some k =>
    have hM : (((a :: t).set k a).tail).length = t.length := by
      simp
    dsimp only
    rw [hM]
  | none => rfl

/-- C5: for every commit processed by `CreatePullRequest` or
`UpdatePullRequest`, the computed base branch name equals the trunk/target
remote branch (the `GetRemoteBranchName` result) when the commit has no
predecessor, and otherwise equals the encoded head branch name
`pr/<user>/<local-branch>/<fingerprint>` of the immediately preceding
commit. Both call sites compute the base exactly as `baseRefNameFor`. -/
theorem baseRefName_correct (localBranchName : String) (remoteBranches : List String)
    (githubBranch : String) (info : GitHubInfo) (prev : Commit) :
    baseRefNameFor localBranchName remoteBranches githubBranch info none
        = GetRemoteBranchName localBranchName remoteBranches githubBranch ∧
      baseRefNameFor localBranchName remoteBranches githubBranch info (some prev)
        = "pr/" ++ info.UserName ++ "/" ++ info.LocalBranch ++ "/" ++ prev.CommitID :=
  ⟨rfl, rfl⟩

/-- C7: on a stack with at most one entry, `formatBody` returns the
commit's own body trimmed of surrounding whitespace; since the result is
exactly the trimmed body, no `**Stack**:` heading, stack annotation or
merge notice is added. -/
theorem formatBody_single (commit : Commit) (stack : List PullRequest)
    (h : stack.length ≤ 1) :
    formatBody commit stack = commit.Body.trim := by
  unfold formatBody
  rw [if_pos h]

/-- Witness for `formatBody_single` at the empty stack and a body with
surrounding whitespace. -/
theorem formatBody_single_witness :
    ([] : List PullRequest).length ≤ 1 ∧
      formatBody sampleCommit [] = (" body one " : String).trim :=
  ⟨by decide, formatBody_single sampleCommit [] (by decide)⟩

/-- C8: when the head commit's status-check rollup is absent (`none`) or
its state string is neither "SUCCESS" nor "PENDING", `GetInfo` records the
checks signal as `CheckStatusFail`, the default-safe value; the translation
is a total function, so the fetch does not abort on such data. -/
theorem checks_default_fail (reviewDecision : Option String) (mergeable : String)
    (s : String) (h1 : s ≠ "SUCCESS") (h2 : s ≠ "PENDING") :
    (mergeStatusOfNode none reviewDecision mergeable).ChecksPass = CheckStatus.Fail ∧
      (mergeStatusOfNode (some s) reviewDecision mergeable).ChecksPass
        = CheckStatus.Fail := by
  refine ⟨rfl, ?_⟩
  simp only [mergeStatusOfNode, checkStatusFromRollup]
  rw [if_neg (by simpa using h1), if_neg (by simpa using h2)]

/-- Witness for `checks_default_fail` at the unrecognized state "FAILURE". -/
theorem checks_default_fail_witness :
    ("FAILURE" : String) ≠ "SUCCESS" ∧ ("FAILURE" : String) ≠ "PENDING" ∧
      ((mergeStatusOfNode none none "MERGEABLE").ChecksPass = CheckStatus.Fail ∧
        (mergeStatusOfNode (some "FAILURE") none "MERGEABLE").ChecksPass
          = CheckStatus.Fail) :=
  ⟨by decide, by decide,
    checks_default_fail none "MERGEABLE" "FAILURE" (by decide) (by decide)⟩

/-- C9: `GetInfo` hands to the ordering engine only pull requests whose
head branch name matches the structured pattern with local-branch capture
equal to the currently checked-out branch: every accepted entry comes from
a node whose head branch decodes to exactly that branch, and a node whose
head branch does not decode, or decodes to a different local branch, is
mapped to `none` and therefore excluded. -/
theorem selectPullRequests_only_matching (repoId branchname : String)
    (nodes : List PullRequestNode) :
    (∀ pr, pr ∈ selectPullRequests repoId branchname nodes →
      ∃ node, node ∈ nodes ∧ pr.FromBranch = node.headRefName ∧
        ∃ fp, decodeBranch node.headRefName = some (branchname, fp)) ∧
    (∀ node, decodeBranch node.headRefName = none →
      selectNode repoId branchname node = none) ∧
    (∀ node localBranch fp,
      decodeBranch node.headRefName = some (localBranch, fp) →
      localBranch ≠ branchname → selectNode repoId branchname node = none) := by
  refine ⟨?_, ?_, ?_⟩
  · intro pr hmem
    rw [selectPullRequests, List.mem_filterMap] at hmem
    obtain ⟨node, hnode, hsel⟩ := hmem
    refine ⟨node, hnode, ?_⟩
    unfold selectNode at hsel
    by_cases hrepo : (repoId == node.repositoryId) = true
    · rw [if_pos hrepo] at hsel
      rcases hdec : decodeBranch node.headRefName with _ | ⟨lb, fp⟩
      · rw [hdec] at hsel
        exact absurd hsel (by simp)
      · rw [hdec] at hsel
        dsimp only at hsel
        by_cases hlb : (lb == branchname) = true
        · rw [if_pos hlb] at hsel
          have hpr : pr = mkPullRequestOfNode node fp := by
            exact (Option.some_inj.mp hsel).symm
          subst hpr
          refine ⟨rfl, fp, ?_⟩
          have hlb' : lb = branchname := by simpa using hlb
          rw [hlb']
        · rw [if_neg hlb] at hsel
          exact absurd hsel (by simp)
    · rw [if_neg hrepo] at hsel
      exact absurd hsel (by simp)
  · intro node hdec
    unfold selectNode
    rw [hdec]
    by_cases hrepo : (repoId == node.repositoryId) = true
    · rw [if_pos hrepo]
    · rw [if_neg hrepo]
  · intro node localBranch fp hdec hne
    unfold selectNode
    rw [hdec]
    by_cases hrepo : (repoId == node.repositoryId) = true
    · rw [if_pos hrepo]
      dsimp only
      rw [if_neg (by simpa using hne)]
    · rw [if_neg hrepo]

/-- Witness for `selectPullRequests_only_matching` on a concrete node list:
the accepted entry comes from the matching node, the undecodable node is
refused, and the node for local branch `other` is refused for branch
`stack`. -/
theorem selectPullRequests_only_matching_witness :
    (∀ pr, pr ∈ selectPullRequests "R" "stack" [nodeGood, nodeBad, nodeOtherBranch] →
      ∃ node, node ∈ [nodeGood, nodeBad, nodeOtherBranch] ∧
        pr.FromBranch = node.headRefName ∧
        ∃ fp, decodeBranch node.headRefName = some ("stack", fp)) ∧
    (decodeBranch nodeBad.headRefName = none ∧
      selectNode "R" "stack" nodeBad = none) ∧
    (decodeBranch nodeOtherBranch.headRefName = some ("other", "abcd1234") ∧
      selectNode "R" "stack" nodeOtherBranch = none) :=
  ⟨(selectPullRequests_only_matching "R" "stack" [nodeGood, nodeBad, nodeOtherBranch]).1,
    ⟨by decide,
      (selectPullRequests_only_matching "R" "stack"
        [nodeGood, nodeBad, nodeOtherBranch]).2.1 nodeBad (by decide)⟩,
    ⟨by decide,
      (selectPullRequests_only_matching "R" "stack"
        [nodeGood, nodeBad, nodeOtherBranch]).2.2 nodeOtherBranch "other" "abcd1234"
        (by decide) (by decide)⟩⟩

/-- The slash separator is not a user character, so a user-character run
followed by a slash is cut exactly at the slash. -/
theorem takeWhile_user_run (u tail : List Char) (hu : u.all isUserChar = true) :
    (u ++ '/' :: tail).takeWhile isUserChar = u ∧
      (u ++ '/' :: tail).dropWhile isUserChar = '/' :: tail := by
  have hslash : isUserChar '/' = false := by decide
  induction u with
  | nil =>
    constructor
    · simp [List.takeWhile_cons, hslash]
    · simp [List.dropWhile_cons, hslash]
  | cons c u' ih =>
    rw [List.all_cons, Bool.and_eq_true] at hu
    obtain ⟨hc, hu'⟩ := hu
    obtain ⟨iht, ihd⟩ := ih hu'
    constructor
    · simp [List.takeWhile_cons, hc, iht]
    · simp [List.dropWhile_cons, hc, ihd]

/-- A match of `BranchNameRegex` anchored at the start of an encoded branch
name succeeds and captures exactly the local branch and the fingerprint. -/
theorem matchAt_encoded (u b f : List Char)
    (hu1 : u ≠ []) (hu : u.all isUserChar = true)
    (hb1 : b ≠ []) (hb : b.all isBranchChar = true)
    (hf8 : f.length = 8) (hf : f.all isHexChar = true) :
    matchAt ('p' :: 'r' :: '/' :: (u ++ '/' :: (b ++ '/' :: f))) = some (b, f) := by
  obtain ⟨ht, hd⟩ := takeWhile_user_run u (b ++ '/' :: f) hu
  have hne : u.isEmpty = false := by
    cases u with
    | nil => exact absurd rfl hu1
    | cons c u' => rfl
  have hblen : 0 < b.length := List.length_pos.mpr hb1
  have hlen : (b ++ '/' :: f).length = b.length + 9 := by
    rw [List.length_append, List.length_cons, hf8]
  have h9 : (b ++ '/' :: f).length - 9 = b.length := by omega
  unfold matchAt
  dsimp only
  rw [if_pos (show (('p' == 'p' && 'r' == 'r' && '/' == '/') = true) by decide)]
  rw [ht, hd, hne]
  rw [if_neg (by simp)]
  dsimp only
  rw [if_pos (show (('/' == '/' && decide (10 ≤ (b ++ '/' :: f).length)) = true) by
    simp only [Bool.and_eq_true, beq_self_eq_true, decide_eq_true_eq, true_and]
    omega)]
  rw [h9, List.take_left, List.drop_left]
  dsimp only
  rw [if_pos]
  simp only [Bool.and_eq_true, beq_self_eq_true, true_and]
  refine ⟨⟨hb, hf⟩, ?_⟩
  simp [hf8]

/-- C3: decoding an encoded branch name (matching `pr/` + user + `/` +
branch + `/` + fingerprint against `BranchNameRegex`, as `GetInfo` does)
recovers exactly the local branch and the fingerprint, for every user made
of user-class characters, local branch made of branch-class characters, and
fingerprint of exactly eight lowercase hex characters. -/
theorem decode_encode_roundtrip (info : GitHubInfo) (commit : Commit)
    (hu1 : info.UserName.data ≠ []) (hu : info.UserName.data.all isUserChar = true)
    (hb1 : info.LocalBranch.data ≠ [])
    (hb : info.LocalBranch.data.all isBranchChar = true)
    (hf8 : commit.CommitID.data.length = 8)
    (hf : commit.CommitID.data.all isHexChar = true) :
    decodeBranch (branchNameFromCommit info commit)
      = some (info.LocalBranch, commit.CommitID) := by
  have hdata : (branchNameFromCommit info commit).data
      = 'p' :: 'r' :: '/' :: (info.UserName.data
          ++ '/' :: (info.LocalBranch.data ++ '/' :: commit.CommitID.data)) := by
    unfold branchNameFromCommit
    simp only [String.data_append]
    simp [List.append_assoc]
  unfold decodeBranch
  rw [hdata]
  unfold findMatch
  rw [matchAt_encoded info.UserName.data info.LocalBranch.data commit.CommitID.data
    hu1 hu hb1 hb hf8 hf]
  rfl

/-- Witness for `decode_encode_roundtrip` at a concrete identity, branch
and fingerprint. -/
theorem decode_encode_roundtrip_witness :
    (("user" : String).data ≠ [] ∧ ("user" : String).data.all isUserChar = true ∧
      ("stack" : String).data ≠ [] ∧ ("stack" : String).data.all isBranchChar = true ∧
      ("abcd1234" : String).data.length = 8 ∧
      ("abcd1234" : String).data.all isHexChar = true) ∧
    decodeBranch
        (branchNameFromCommit
          { UserName := "user", RepositoryID := "R", LocalBranch := "stack"
            PullRequests := [] } sampleCommit)
      = some ("stack", "abcd1234") :=
  ⟨⟨by decide, by decide, by decide, by decide, by decide, by decide⟩,
    decode_encode_roundtrip
      { UserName := "user", RepositoryID := "R", LocalBranch := "stack"
        PullRequests := [] } sampleCommit
      (by decide) (by decide) (by decide) (by decide) (by decide) (by decide)⟩

/-- Go struct equality on `git.Commit` is equality of all four fields. -/
theorem commit_eq_iff (c1 c2 : Commit) :
    c1 = c2 ↔ (c1.CommitID = c2.CommitID ∧ c1.CommitHash = c2.CommitHash ∧
      c1.Subject = c2.Subject ∧ c1.Body = c2.Body) := by
  cases c1
  cases c2
  simp [Commit.mk.injEq]

/-- C6 (amended): on a multi-entry stack, `formatBody` appends the stack
block built by `formatStackMarkdown`, which emits exactly one `- #<number>`
bullet per entry, iterating from the last slice index to the first (so the
entry at input position `length - 1 - i` produces output line `i`; for a
chain-ordered stack, whose trunk-adjacent entry sits at index 0, that
entry is therefore printed last, not first — see
`formatStackMarkdown_trunk_adjacent_last`), and the directional marker is
appended to exactly those bullets whose entry's commit equals the input
commit in all four fields (fingerprint, hash, subject and body — Go struct
equality). -/
theorem formatBody_multi_marks (commit : Commit) (stack : List PullRequest)
    (h2 : 2 ≤ stack.length) :
    formatBody commit stack
        = (if commit.Body == "" then
            "**Stack**:\n" ++ addManualMergeNotice (formatStackMarkdown commit stack)
          else
            commit.Body ++ "\n\n---\n\n**Stack**:\n" ++
              addManualMergeNotice (formatStackMarkdown commit stack)) ∧
      formatStackMarkdown commit stack
        = String.join (stack.reverse.map (prBullet commit)) ∧
      (stack.reverse.map (prBullet commit)).length = stack.length ∧
      (∀ i, i < stack.length →
        (stack.reverse.map (prBullet commit)).getD i ""
          = prBullet commit (stack.getD (stack.length - 1 - i) default)) ∧
      (∀ pr, prBullet commit pr = "- #" ++ toString pr.Number ++ " ⬅" ++ "\n" ↔
        (pr.Commit.CommitID = commit.CommitID ∧
          pr.Commit.CommitHash = commit.CommitHash ∧
          pr.Commit.Subject = commit.Subject ∧ pr.Commit.Body = commit.Body)) := by
  refine ⟨?_, rfl, by simp, ?_, ?_⟩
  · unfold formatBody
    rw [if_neg (by omega)]
  · intro i hi
    have hi' : i < (stack.reverse.map (prBullet commit)).length := by simp [hi]
    have hi'' : stack.length - 1 - i < stack.length := by omega
    rw [List.getD_eq_getElem _ _ hi', List.getD_eq_getElem _ _ hi'']
    rw [List.getElem_map, List.getElem_reverse]
  · intro pr
    constructor
    · intro h
      by_cases hc : (pr.Commit == commit) = true
      · have : pr.Commit = commit := by simpa using hc
        exact (commit_eq_iff _ _).mp this
      · exfalso
        unfold prBullet at h
        rw [if_neg hc] at h
        have hlen := congrArg String.length h
        rw [String.length_append, String.length_append, String.length_append,
          String.length_append, String.length_append, String.length_append] at hlen
        have e0 : ("" : String).length = 0 := by decide
        have e2 : (" ⬅" : String).length = 2 := by decide
        rw [e0, e2] at hlen
        omega
    · intro hf
      have hc : pr.Commit = commit := (commit_eq_iff _ _).mpr hf
      unfold prBullet
      rw [if_pos (by simp [hc])]

/-- Witness for `formatBody_multi_marks` on the two-entry sample stack with
the commit of `prOne` as input commit. -/
theorem formatBody_multi_marks_witness :
    2 ≤ ([prOne, prTwo] : List PullRequest).length ∧
      (formatBody sampleCommit [prOne, prTwo]
          = (if sampleCommit.Body == "" then
              "**Stack**:\n"
                ++ addManualMergeNotice (formatStackMarkdown sampleCommit [prOne, prTwo])
            else
              sampleCommit.Body ++ "\n\n---\n\n**Stack**:\n"
                ++ addManualMergeNotice (formatStackMarkdown sampleCommit [prOne, prTwo])) ∧
        formatStackMarkdown sampleCommit [prOne, prTwo]
          = String.join (([prOne, prTwo] : List PullRequest).reverse.map
              (prBullet sampleCommit)) ∧
        (([prOne, prTwo] : List PullRequest).reverse.map (prBullet sampleCommit)).length
          = ([prOne, prTwo] : List PullRequest).length ∧
        (∀ i, i < ([prOne, prTwo] : List PullRequest).length →
          (([prOne, prTwo] : List PullRequest).reverse.map (prBullet sampleCommit)).getD i ""
            = prBullet sampleCommit
                (([prOne, prTwo] : List PullRequest).getD
                  (([prOne, prTwo] : List PullRequest).length - 1 - i) default)) ∧
        (∀ pr, prBullet sampleCommit pr
            = "- #" ++ toString pr.Number ++ " ⬅" ++ "\n" ↔
          (pr.Commit.CommitID = sampleCommit.CommitID ∧
            pr.Commit.CommitHash = sampleCommit.CommitHash ∧
            pr.Commit.Subject = sampleCommit.Subject ∧
            pr.Commit.Body = sampleCommit.Body))) :=
  ⟨by decide, formatBody_multi_marks sampleCommit [prOne, prTwo] (by decide)⟩

/-- C6 counterexample: the claim's clause that the trunk-adjacent entry is
printed first is false. `[prOne, prTwo]` is a chain-ordered stack with the
trunk-adjacent entry `prOne` (number 1, base `main`) at index 0; iterating
from the last slice index to the first, `formatStackMarkdown` prints
`prTwo`'s bullet first and `prOne`'s bullet (the marked one) last, not the
trunk-adjacent-first rendering the claim predicts. -/
theorem formatStackMarkdown_trunk_adjacent_last :
    chainOK "main" [prOne, prTwo] = true ∧
      formatStackMarkdown sampleCommit [prOne, prTwo] = "- #2\n- #1 ⬅\n" ∧
      ("- #2\n- #1 ⬅\n" : String) ≠ "- #1 ⬅\n- #2\n" :=
  ⟨by decide, by decide, by decide⟩

/-- A swap strictly below the head acts on the tail. -/
theorem swapL_cons (a : PullRequest) (t : List PullRequest) (i j : Nat) :
    swapL (a :: t) (i + 1) (j + 1) = a :: swapL t i j := by
  unfold swapL
  rw [List.get?_cons_succ, List.get?_cons_succ]
  cases h1 : t.get? i <;> cases h2 : t.get? j <;> rfl

/-- A swap of the head with position `k` moves the entry at `k` to the
front and the old front entry to position `k`: the tail of the swap is the
suffix with position `k` overwritten by the old head. -/
theorem swapL_zero (a : PullRequest) (t : List PullRequest) (k : Nat)
    (hk : k < t.length + 1) :
    swapL (a :: t) 0 k = (a :: t).getD k a :: ((a :: t).set k a).tail := by
  cases k with
  | zero =>
    unfold swapL
    simp [List.set]
  | succ m =>
    have hm : m < t.length := by omega
    have hget : t.get? m = some (t.get ⟨m, hm⟩) := List.get?_eq_get hm
    unfold swapL
    rw [List.get?_cons_zero, List.get?_cons_succ, hget]
    dsimp only
    rw [List.getD_cons_succ]
    have hgetD : t.getD m a = t.get ⟨m, hm⟩ := by
      rw [List.getD_eq_getElem _ _ hm]
      rfl
    rw [hgetD]
    simp [List.set]

/-- A swap at positions `i ≤ i + k` leaves the first `i` entries alone and
acts as a head swap on the dropped suffix. -/
theorem swapL_shift (i : Nat) (prs : List PullRequest) (k : Nat) :
    swapL prs i (i + k) = prs.take i ++ swapL (prs.drop i) 0 k := by
  induction i generalizing prs with
  | zero => simp
  | succ i ih =>
    cases prs with
    | nil => simp [swapL]
    | cons a t =>
      have : i + 1 + k = (i + k) + 1 := by omega
      rw [this, swapL_cons, ih t]
      simp

/-- Reading a dropped suffix is reading the original at an offset. -/
theorem getD_drop (l : List PullRequest) (i k : Nat) (d : PullRequest) :
    (l.drop i).getD k d = l.getD (i + k) d := by
  induction l generalizing i with
  | nil => simp
  | cons a t ih =>
    cases i with
    | zero => simp
    | succ m =>
      rw [List.drop_succ_cons, ih m]
      rw [show m + 1 + k = (m + k) + 1 by omega, List.getD_cons_succ]

/-- In-range reads do not depend on the fallback value. -/
theorem getD_irrel (l : List PullRequest) (k : Nat) (d1 d2 : PullRequest)
    (hk : k < l.length) : l.getD k d1 = l.getD k d2 := by
  rw [List.getD_eq_getElem _ _ hk, List.getD_eq_getElem _ _ hk]

/-- A found position is in range. -/
theorem findPos_lt (target : String) (l : List PullRequest) (k : Nat)
    (h : findPos target l = some k) : k < l.length := by
  induction l generalizing k with
  | nil => exact absurd h (by simp [findPos])
  | cons a t ih =>
    unfold findPos at h
    by_cases ha : (a.ToBranch == target) = true
    · rw [if_pos ha] at h
      cases h
      simp
    · rw [if_neg ha] at h
      cases hf : findPos target t with
      | none => rw [hf] at h; exact absurd h (by simp)
      | some m =>
        rw [hf] at h
        have : m + 1 = k := by simpa using h
        have := ih m hf
        simp only [List.length_cons]
        omega

/-- The indexed scan of the loop embedding equals the structural scan of
the dropped suffix, shifted by the start position. -/
theorem findFrom_eq (prs : List PullRequest) (target : String) (i : Nat) :
    findFrom prs target i = (findPos target (prs.drop i)).map (fun k => i + k) := by
  have H : ∀ n prs target i, prs.length - i ≤ n →
      findFrom prs target i = (findPos target (prs.drop i)).map (fun k => i + k) := by
    intro n
    induction n with
    | zero =>
      intro prs target i hn
      have hge : prs.length ≤ i := by omega
      rw [List.drop_eq_nil_of_le hge]
      rw [findFrom_rec, dif_neg (by omega)]
      simp [findPos]
    | succ n ih =>
      intro prs target i hn
      by_cases h : i < prs.length
      · have hcons : prs.drop i = prs.get ⟨i, h⟩ :: prs.drop (i + 1) :=
          (List.getElem_cons_drop prs i h).symm
        rw [findFrom_rec, dif_pos h, hcons]
        unfold findPos
        by_cases ha : ((prs.get ⟨i, h⟩).ToBranch == target) = true
        · rw [if_pos ha, if_pos ha]
          simp
        · rw [if_neg ha, if_neg ha]
          rw [ih prs target (i + 1) (by omega)]
          rw [Option.map_map]
          congr 1
          funext k
          simp only [Function.comp_apply]
          omega
      · have hge : prs.length ≤ i := by omega
        rw [List.drop_eq_nil_of_le hge]
        rw [findFrom_rec, dif_neg (by omega)]
        simp [findPos]
  exact H (prs.length - i) prs target i le_rfl

/-- Taking or dropping one element past a known-length front block. -/
theorem take_drop_append_cons (A : List PullRequest) (b : PullRequest)
    (M : List PullRequest) (i : Nat) (hA : A.length = i) :
    (A ++ b :: M).take (i + 1) = A ++ [b] ∧ (A ++ b :: M).drop (i + 1) = M := by
  subst hA
  constructor
  · rw [List.take_append 1, List.take_succ_cons, List.take_zero]
  · rw [List.drop_append 1, List.drop_succ_cons, List.drop_zero]

/-- Bridge between the faithful index-and-swap loop embedding and the
structural recursion on the unvisited suffix: `sortLoop` leaves the first
`i` entries as they are and rearranges the dropped suffix exactly as
`sortSuffix` describes. -/
theorem sortLoop_eq (prs : List PullRequest) (target : String) (i : Nat) :
    sortLoop prs target i = prs.take i ++ sortSuffix target (prs.drop i) := by
  have H : ∀ n prs target i, prs.length - i ≤ n →
      sortLoop prs target i = prs.take i ++ sortSuffix target (prs.drop i) := by
    intro n
    induction n with
    | zero =>
      intro prs target i hn
      have hge : prs.length ≤ i := by omega
      rw [sortLoop_rec, if_neg (by omega), List.drop_eq_nil_of_le hge,
        List.take_of_length_le hge, sortSuffix_nil]
      simp
    | succ n ih =>
      intro prs target i hn
      by_cases h : i < prs.length
      · have hcons : prs.drop i = prs.get ⟨i, h⟩ :: prs.drop (i + 1) :=
          (List.getElem_cons_drop prs i h).symm
        have hA : (prs.take i).length = i := by
          rw [List.length_take]
          omega
        rw [sortLoop_rec, if_pos h, findFrom_eq]
        cases hfp : findPos target (prs.drop i) with
        | none =>
          dsimp only [Option.map_none']
          have hfp' : findPos target (prs.get ⟨i, h⟩ :: prs.drop (i + 1)) = none := by
            rw [← hcons]
            exact hfp
          rw [ih prs target (i + 1) (by omega)]
          conv_rhs => rw [hcons]
          rw [sortSuffix_cons]
          rw [hfp']
          rw [List.take_succ, List.getElem?_eq_getElem h]
          simp only [Option.toList_some, List.append_assoc, List.singleton_append]
          rfl
        | some k =>
          dsimp only [Option.map_some']
          have hk : k < (prs.drop i).length := findPos_lt target (prs.drop i) k hfp
          have hk' : k < (prs.drop (i + 1)).length + 1 := by
            simp only [List.length_drop] at hk ⊢
            omega
          have hfp' : findPos target (prs.get ⟨i, h⟩ :: prs.drop (i + 1)) = some k := by
            rw [← hcons]
            exact hfp
          rw [ih (swapL prs i (i + k)) (prs.getD (i + k) default).FromBranch (i + 1)
            (by rw [swapL_length]; omega)]
          rw [swapL_shift i prs k]
          conv_lhs => rw [hcons]
          rw [swapL_zero (prs.get ⟨i, h⟩) (prs.drop (i + 1)) k hk']
          rw [(take_drop_append_cons (prs.take i) _ _ i hA).1,
            (take_drop_append_cons (prs.take i) _ _ i hA).2]
          have hgd : prs.getD (i + k) default
              = (prs.get ⟨i, h⟩ :: prs.drop (i + 1)).getD k (prs.get ⟨i, h⟩) := by
            rw [← hcons, ← getD_drop prs i k default]
            exact getD_irrel (prs.drop i) k default (prs.get ⟨i, h⟩) hk
          rw [hgd]
          conv_rhs => rw [hcons]
          rw [sortSuffix_cons]
          rw [hfp']
          rw [List.append_assoc, List.singleton_append]
      · have hge : prs.length ≤ i := by omega
        rw [sortLoop_rec, if_neg (by omega), List.drop_eq_nil_of_le hge,
          List.take_of_length_le hge, sortSuffix_nil]
        simp
  exact H (prs.length - i) prs target i le_rfl

/-- In-range reads are members. -/
theorem getD_mem (l : List PullRequest) (k : Nat) (d : PullRequest)
    (hk : k < l.length) : l.getD k d ∈ l := by
  rw [List.getD_eq_getElem _ _ hk]
  exact List.getElem_mem hk

/-- Pulling the entry at position `m` to the front while writing `x` into
its place is a permutation of putting `x` at the front. -/
theorem swap_head_perm (t : List PullRequest) (m : Nat) (d x : PullRequest)
    (hm : m < t.length) : (t.getD m d :: t.set m x).Perm (x :: t) := by
  induction t generalizing m with
  | nil => simp at hm
  | cons b t' ih =>
    cases m with
    | zero =>
      rw [List.getD_cons_zero, List.set_cons_zero]
      exact List.Perm.swap x b t'
    | succ m' =>
      rw [List.getD_cons_succ, List.set_cons_succ]
      have hm' : m' < t'.length := by
        simp only [List.length_cons] at hm
        omega
      exact (List.Perm.swap b (t'.getD m' d) (t'.set m' x)).trans
        (((ih m' hm').cons b).trans (List.Perm.swap x b t'))

/-- The entry picked out of the suffix, followed by the rest of the suffix
after the swap, is a permutation of the suffix. -/
theorem head_swap_perm (a : PullRequest) (t : List PullRequest) (k : Nat)
    (hk : k < t.length + 1) :
    ((a :: t).getD k a :: ((a :: t).set k a).tail).Perm (a :: t) := by
  cases k with
  | zero =>
    rw [List.getD_cons_zero, List.set_cons_zero]
    exact List.Perm.refl _
  | succ m =>
    rw [List.getD_cons_succ, List.set_cons_succ]
    exact swap_head_perm t m a a (by omega)

/-- The structural sort permutes its input. -/
theorem sortSuffix_perm (target : String) (l : List PullRequest) :
    (sortSuffix target l).Perm l := by
  have H : ∀ n l, l.length ≤ n → ∀ target : String, (sortSuffix target l).Perm l := by
    intro n
    induction n with
    | zero =>
      intro l hl target
      have : l = [] := List.eq_nil_of_length_eq_zero (by omega)
      subst this
      rw [sortSuffix_nil]
    | succ n ih =>
      intro l hl target
      cases l with
      | nil => rw [sortSuffix_nil]
      | cons a t =>
        rw [sortSuffix_cons]
        cases hfp : findPos target (a :: t) with
        | none =>
          dsimp only
          exact (ih t (by simp at hl; omega) target).cons a
        | some k =>
          dsimp only
          have hk : k < t.length + 1 := by
            have := findPos_lt target (a :: t) k hfp
            simpa using this
          have hM : (((a :: t).set k a).tail).length = t.length := by simp
          have ihM := ih (((a :: t).set k a).tail) (by rw [hM]; simp at hl; omega)
            ((a :: t).getD k a).FromBranch
          exact (ihM.cons _).trans (head_swap_perm a t k hk)
  exact H l.length l le_rfl target

/-- A failed structural scan means no entry merges into the target. -/
theorem findPos_none_all (target : String) (l : List PullRequest)
    (h : findPos target l = none) :
    ∀ x ∈ l, (x.ToBranch == target) = false := by
  induction l with
  | nil => intro x hx; simp at hx
  | cons a t ih =>
    unfold findPos at h
    by_cases ha : (a.ToBranch == target) = true
    · rw [if_pos ha] at h
      exact absurd h (by simp)
    · rw [if_neg ha] at h
      intro x hx
      rcases List.mem_cons.mp hx with hxa | hxt
      · subst hxa
        exact Bool.eq_false_iff.mpr ha
      · exact ih (by
          cases hf : findPos target t with
          | none => rfl
          | some m => rw [hf] at h; exact absurd h (by simp)) x hxt

/-- A successful structural scan returns a position whose entry merges into
the target. -/
theorem findPos_getD_eq (target : String) (l : List PullRequest) (k : Nat)
    (h : findPos target l = some k) (d : PullRequest) :
    (l.getD k d).ToBranch = target := by
  induction l generalizing k with
  | nil => exact absurd h (by simp [findPos])
  | cons a t ih =>
    unfold findPos at h
    by_cases ha : (a.ToBranch == target) = true
    · rw [if_pos ha] at h
      have hk : k = 0 := by simpa using h.symm
      subst hk
      rw [List.getD_cons_zero]
      simpa using ha
    · rw [if_neg ha] at h
      cases hf : findPos target t with
      | none => rw [hf] at h; exact absurd h (by simp)
      | some m =>
        rw [hf] at h
        have hk : k = m + 1 := by simpa using h.symm
        subst hk
        rw [List.getD_cons_succ]
        exact ih m hf

/-- An entry merging into the target makes the structural scan succeed. -/
theorem findPos_exists (target : String) (l : List PullRequest)
    (p : PullRequest) (hp : p ∈ l) (hTo : p.ToBranch = target) :
    ∃ k, findPos target l = some k := by
  cases hf : findPos target l with
  | none =>
    have := findPos_none_all target l hf p hp
    rw [hTo] at this
    simp at this
  | some k => exact ⟨k, rfl⟩

/-- On an input that is a permutation of a connected chain with pairwise
distinct base branches, the structural sort returns exactly that chain. -/
theorem sortSuffix_of_chain (q : List PullRequest) (target : String)
    (l : List PullRequest) (hchain : chainOK target q = true)
    (hnodup : (q.map PullRequest.ToBranch).Nodup) (hperm : l.Perm q) :
    sortSuffix target l = q := by
  induction q generalizing target l with
  | nil =>
    have : l = [] := List.eq_nil_of_length_eq_zero (by simpa using hperm.length_eq)
    subst this
    rw [sortSuffix_nil]
  | cons p ps ih =>
    cases l with
    | nil =>
      have := hperm.length_eq
      simp at this
    | cons a t =>
      unfold chainOK at hchain
      rw [Bool.and_eq_true] at hchain
      obtain ⟨hTo, hch⟩ := hchain
      have hTo' : p.ToBranch = target := by simpa using hTo
      rw [List.map_cons, List.nodup_cons] at hnodup
      obtain ⟨hnotin, hnd⟩ := hnodup
      have hpmem : p ∈ a :: t := hperm.mem_iff.mpr (List.mem_cons_self p ps)
      obtain ⟨k, hfp⟩ := findPos_exists target (a :: t) p hpmem hTo'
      have hk : k < t.length + 1 := by
        have := findPos_lt target (a :: t) k hfp
        simpa using this
      have hbTo : ((a :: t).getD k a).ToBranch = target :=
        findPos_getD_eq target (a :: t) k hfp a
      have hbmem : (a :: t).getD k a ∈ a :: t := getD_mem (a :: t) k a (by simpa using hk)
      have hb : (a :: t).getD k a = p := by
        rcases List.mem_cons.mp (hperm.mem_iff.mp hbmem) with h | h
        · exact h
        · exfalso
          apply hnotin
          rw [hTo', ← hbTo]
          exact List.mem_map_of_mem PullRequest.ToBranch h
      rw [sortSuffix_cons, hfp]
      dsimp only
      rw [hb]
      have hswap : (p :: ((a :: t).set k a).tail).Perm (a :: t) := by
        rw [← hb]
        exact head_swap_perm a t k hk
      have hMps : (((a :: t).set k a).tail).Perm ps :=
        (hswap.trans hperm).cons_inv
      rw [ih p.FromBranch (((a :: t).set k a).tail) hch hnd hMps]

/-- A connected chain has the claimed output shape: first entry merges into
the target, each later entry merges into its predecessor's head. -/
theorem chainOK_imp_shape (q : List PullRequest) (target : String)
    (hchain : chainOK target q = true) : chainShape target q := by
  induction q generalizing target with
  | nil =>
    constructor
    · intro h
      simp at h
    · intro i hi
      simp at hi
  | cons p ps ih =>
    unfold chainOK at hchain
    rw [Bool.and_eq_true] at hchain
    obtain ⟨hTo, hch⟩ := hchain
    obtain ⟨ih1, ih2⟩ := ih p.FromBranch hch
    constructor
    · intro _
      rw [List.getD_cons_zero]
      simpa using hTo
    · intro i hi
      cases i with
      | zero =>
        rw [List.getD_cons_succ, List.getD_cons_zero]
        exact ih1 (by simpa using hi)
      | succ j =>
        rw [List.getD_cons_succ, List.getD_cons_succ]
        exact ih2 j (by simpa using hi)

/-- The stacked-flag pass keeps the list length. -/
theorem markStacked_length (ready : PullRequest → Bool) (l : List PullRequest) :
    (markStacked ready l).length = l.length := by
  induction l with
  | nil => rfl
  | cons p rest ih =>
    unfold markStacked
    by_cases hr : ready p = true
    · rw [if_pos hr]
      simp [ih]
    · rw [if_neg hr]

/-- The stacked-flag pass changes no entry's base or head branch. -/
theorem markStacked_branches (ready : PullRequest → Bool) (l : List PullRequest)
    (i : Nat) (d : PullRequest) :
    ((markStacked ready l).getD i d).ToBranch = (l.getD i d).ToBranch ∧
      ((markStacked ready l).getD i d).FromBranch = (l.getD i d).FromBranch := by
  induction l generalizing i with
  | nil => exact ⟨rfl, rfl⟩
  | cons p rest ih =>
    unfold markStacked
    by_cases hr : ready p = true
    · rw [if_pos hr]
      cases i with
      | zero => exact ⟨rfl, rfl⟩
      | succ j =>
        rw [List.getD_cons_succ, List.getD_cons_succ]
        exact ih j
    · rw [if_neg hr]
      exact ⟨rfl, rfl⟩

/-- The stacked-flag pass preserves the chain shape of the ordered list. -/
theorem markStacked_chainShape (ready : PullRequest → Bool) (target : String)
    (l : List PullRequest) (h : chainShape target l) :
    chainShape target (markStacked ready l) := by
  obtain ⟨h1, h2⟩ := h
  constructor
  · intro hlen
    rw [(markStacked_branches ready l 0 default).1]
    exact h1 (by rwa [markStacked_length] at hlen)
  · intro i hi
    rw [(markStacked_branches ready l (i + 1) default).1,
      (markStacked_branches ready l i default).2]
    exact h2 i (by rwa [markStacked_length] at hi)

/-- C1: for every input set of pull requests whose base/head links form a
single connected chain ending at the trunk branch — formally: the input is
a permutation of a sequence `q` threading the links from the trunk
(`chainOK`), no base branch being revisited (`Nodup` of the `ToBranch`
values, which is what makes the threading a single chain rather than a
fork) — the output of `sortPullRequests` starts with the entry merging
into the trunk and each later entry merges into its predecessor's head. -/
theorem sortPullRequests_chain_order (ready : PullRequest → Bool)
    (prs : List PullRequest) (targetBranch : String) (q : List PullRequest)
    (hperm : prs.Perm q) (hchain : chainOK targetBranch q = true)
    (hnodup : (q.map PullRequest.ToBranch).Nodup) :
    chainShape targetBranch (sortPullRequests ready prs targetBranch) := by
  unfold sortPullRequests
  have h0 : sortLoop prs targetBranch 0 = sortSuffix targetBranch prs := by
    rw [sortLoop_eq]
    simp
  rw [h0, sortSuffix_of_chain q targetBranch prs hchain hnodup hperm]
  exact markStacked_chainShape ready targetBranch q (chainOK_imp_shape q targetBranch hchain)

/-- Witness for `sortPullRequests_chain_order`: the two-entry sample stack
given in scrambled order. -/
theorem sortPullRequests_chain_order_witness :
    (([prTwo, prOne] : List PullRequest).Perm [prOne, prTwo] ∧
      chainOK "main" [prOne, prTwo] = true ∧
      (([prOne, prTwo] : List PullRequest).map PullRequest.ToBranch).Nodup) ∧
    chainShape "main" (sortPullRequests Ready [prTwo, prOne] "main") :=
  ⟨⟨by decide, by decide, by decide⟩,
    sortPullRequests_chain_order Ready [prTwo, prOne] "main" [prOne, prTwo]
      (by decide) (by decide) (by decide)⟩

/-- One-step unfolding of the stacked-flag pass. -/
theorem markStacked_cons (ready : PullRequest → Bool) (p : PullRequest)
    (rest : List PullRequest) :
    markStacked ready (p :: rest) =
      if ready p then setStackedTrue p :: markStacked ready rest else p :: rest := rfl

/-- If every input entry enters the stacked-flag pass with `Stacked` false,
the pass produces flags that are true only on a contiguous leading block. -/
theorem markStacked_contiguous (ready : PullRequest → Bool) (l : List PullRequest)
    (hall : ∀ pr ∈ l, pr.MergeStatus.Stacked = false) :
    ∀ k j (d : PullRequest), k < j → j < (markStacked ready l).length →
      ((markStacked ready l).getD k d).MergeStatus.Stacked = false →
      ((markStacked ready l).getD j d).MergeStatus.Stacked = false := by
  induction l with
  | nil =>
    intro k j d hkj hj hk
    simp [markStacked] at hj
  | cons p rest ih =>
    intro k j d hkj hj hk
    by_cases hr : ready p = true
    · have he : markStacked ready (p :: rest)
          = setStackedTrue p :: markStacked ready rest := by
        rw [markStacked_cons, if_pos hr]
      rw [he] at hj hk ⊢
      cases k with
      | zero =>
        exfalso
        rw [List.getD_cons_zero] at hk
        simp [setStackedTrue] at hk
      | succ k' =>
        cases j with
        | zero => omega
        | succ j' =>
          rw [List.getD_cons_succ] at hk ⊢
          refine ih (fun pr hpr => hall pr (List.mem_cons_of_mem p hpr)) k' j' d
            (by omega) ?_ hk
          simp only [List.length_cons] at hj
          omega
    · have he : markStacked ready (p :: rest) = p :: rest := by
        rw [markStacked_cons, if_neg hr]
      rw [he] at hj ⊢
      cases j with
      | zero => omega
      | succ j' =>
        rw [List.getD_cons_succ]
        have hj' : j' < rest.length := by
          simp only [List.length_cons] at hj
          omega
        exact hall (rest.getD j' d) (List.mem_cons_of_mem p (getD_mem rest j' d hj'))

/-- C2 (amended): provided every input entry starts with `Stacked == false`
(as is the case for every pull request built by `GetInfo`, whose merge
status is constructed with the zero value for `Stacked`), the output of
`sortPullRequests` has `Stacked` true only on a contiguous leading block:
once an output position carries `Stacked == false`, every later position
does too, even if a later entry is individually ready. Without that
proviso the property fails, see `sortPullRequests_stacked_gap`. -/
theorem sortPullRequests_stacked_contiguous (ready : PullRequest → Bool)
    (prs : List PullRequest) (targetBranch : String)
    (hall : ∀ pr ∈ prs, pr.MergeStatus.Stacked = false) :
    ∀ k j, k < j → j < (sortPullRequests ready prs targetBranch).length →
      ((sortPullRequests ready prs targetBranch).getD k default).MergeStatus.Stacked
        = false →
      ((sortPullRequests ready prs targetBranch).getD j default).MergeStatus.Stacked
        = false := by
  intro k j hkj hj hk
  unfold sortPullRequests at hj hk ⊢
  have h0 : sortLoop prs targetBranch 0 = sortSuffix targetBranch prs := by
    rw [sortLoop_eq]
    simp
  rw [h0] at hj hk ⊢
  have hall' : ∀ pr ∈ sortSuffix targetBranch prs, pr.MergeStatus.Stacked = false :=
    fun pr hpr => hall pr ((sortSuffix_perm targetBranch prs).mem_iff.mp hpr)
  exact markStacked_contiguous ready (sortSuffix targetBranch prs) hall' k j default
    hkj hj hk

/-- Witness for `sortPullRequests_stacked_contiguous` on the two-entry
sample stack, whose entries all start with `Stacked == false`. -/
theorem sortPullRequests_stacked_contiguous_witness :
    (∀ pr ∈ ([prTwo, prOne] : List PullRequest), pr.MergeStatus.Stacked = false) ∧
    (∀ k j, k < j → j < (sortPullRequests Ready [prTwo, prOne] "main").length →
      ((sortPullRequests Ready [prTwo, prOne] "main").getD k default).MergeStatus.Stacked
        = false →
      ((sortPullRequests Ready [prTwo, prOne] "main").getD j default).MergeStatus.Stacked
        = false) :=
  ⟨by decide,
    sortPullRequests_stacked_contiguous Ready [prTwo, prOne] "main" (by decide)⟩

/-- C2 counterexample: the claim as stated — over every input of
`sortPullRequests` — is false. When an entry arrives with `Stacked`
already true (here `prTwoPreStacked`) behind a not-ready first entry, the
flag loop breaks at position 0 and never clears the later flag, so the
output carries `Stacked == false` at position 0 and `Stacked == true` at
position 1, violating the contiguous-block property. -/
theorem sortPullRequests_stacked_gap :
    (sortPullRequests Ready [prOne, prTwoPreStacked] "main").length = 2 ∧
    ((sortPullRequests Ready [prOne, prTwoPreStacked] "main").getD 0
        default).MergeStatus.Stacked = false ∧
    ((sortPullRequests Ready [prOne, prTwoPreStacked] "main").getD 1
        default).MergeStatus.Stacked = true := by
  refine ⟨by decide, by decide, by decide⟩

/-- C4 (amended): when the scan at some position finds no entry whose base
branch equals the current target, the loop neither aborts nor rearranges
anything further: the slice is returned as it stands at that point (so the
unscanned entries appear at the end in the order already produced by the
earlier swaps — which, see `sortPullRequests_disconnected_order`, need not
be their original relative order); and the full pass always returns all
entries. -/
theorem sortLoop_skip :
    (∀ (prs : List PullRequest) (targetBranch : String) (i : Nat),
      findFrom prs targetBranch i = none → sortLoop prs targetBranch i = prs) ∧
    (∀ (ready : PullRequest → Bool) (prs : List PullRequest) (targetBranch : String),
      (sortPullRequests ready prs targetBranch).length = prs.length) := by
  constructor
  · have H : ∀ n prs (targetBranch : String) i, prs.length - i ≤ n →
        findFrom prs targetBranch i = none → sortLoop prs targetBranch i = prs := by
      intro n
      induction n with
      | zero =>
        intro prs targetBranch i hn hnone
        rw [sortLoop_rec, if_neg (by omega)]
      | succ n ih =>
        intro prs targetBranch i hn hnone
        by_cases h : i < prs.length
        · rw [sortLoop_rec, if_pos h, hnone]
          apply ih prs targetBranch (i + 1) (by omega)
          rw [findFrom_rec, dif_pos h] at hnone
          by_cases ha : ((prs.get ⟨i, h⟩).ToBranch == targetBranch) = true
          · rw [if_pos ha] at hnone
            exact absurd hnone (by simp)
          · rwa [if_neg ha] at hnone
        · rw [sortLoop_rec, if_neg h]
    exact fun prs targetBranch i => H (prs.length - i) prs targetBranch i le_rfl
  · intro ready prs targetBranch
    unfold sortPullRequests
    rw [markStacked_length]
    have h0 : sortLoop prs targetBranch 0 = sortSuffix targetBranch prs := by
      rw [sortLoop_eq]
      simp
    rw [h0]
    exact (sortSuffix_perm targetBranch prs).length_eq

/-- Witness for `sortLoop_skip`: a one-entry slice whose base matches no
target is left untouched, and a full pass keeps the length. -/
theorem sortLoop_skip_witness :
    findFrom [prOffA] "zzz" 0 = none ∧ sortLoop [prOffA] "zzz" 0 = [prOffA] ∧
      (sortPullRequests Ready [prOffA] "main").length = ([prOffA] : List PullRequest).length :=
  ⟨by decide, sortLoop_skip.1 [prOffA] "zzz" 0 (by decide),
    sortLoop_skip.2 Ready [prOffA] "main"⟩

/-- C4 counterexample: the claim's further assertion that the remaining
unscanned entries keep their original relative order is false. On input
`[prOffA, prOffB, prOnMain]` with trunk `main`, the scan for position 0
selects `prOnMain` and the swap moves `prOffA` to the end; no later scan
matches, so the output is `[prOnMain, prOffB, prOffA]`, whereas the claim
predicts the original relative order `[prOnMain, prOffA, prOffB]`. -/
theorem sortPullRequests_disconnected_order :
    sortPullRequests Ready [prOffA, prOffB, prOnMain] "main"
        = [prOnMain, prOffB, prOffA] ∧
      ([prOnMain, prOffB, prOffA] : List PullRequest)
        ≠ [prOnMain, prOffA, prOffB] := by
  exact ⟨by decide, by decide⟩

/-- Setting the stacked flag on an entry whose flag is already set is the
identity. -/
theorem setStackedTrue_of_stacked (pr : PullRequest)
    (h : pr.MergeStatus.Stacked = true) : setStackedTrue pr = pr := by
  obtain ⟨i1, n1, t1, f1, b1, c1, cp, ra, nc, st⟩ := pr
  dsimp only at h
  subst h
  rfl

/-- An entry whose stacked flag is already true survives the flag pass
unchanged. -/
theorem markStacked_mem (ready : PullRequest → Bool) (l : List PullRequest)
    (pr : PullRequest) (hmem : pr ∈ l) (hst : pr.MergeStatus.Stacked = true) :
    pr ∈ markStacked ready l := by
  induction l with
  | nil => simp at hmem
  | cons p rest ih =>
    unfold markStacked
    by_cases hr : ready p = true
    · rw [if_pos hr]
      rcases List.mem_cons.mp hmem with h | h
      · subst h
        rw [setStackedTrue_of_stacked pr hst]
        exact List.mem_cons_self pr _
      · exact List.mem_cons_of_mem _ (ih h)
    · rw [if_neg hr]
      exact hmem

/-- C10: `sortPullRequests` never clears a stacked flag — every input
entry whose `Stacked` flag is already true appears unchanged in the output
(the flag loop only ever assigns `true` and stops at the first not-ready
entry) — and consequently the contiguous-block property of the output
flags can fail when an input entry starts with `Stacked == true`: on the
concrete input below the pre-stacked entry ends up, flag intact, behind a
not-ready entry. -/
theorem sortPullRequests_preserves_stacked :
    (∀ (ready : PullRequest → Bool) (prs : List PullRequest)
      (targetBranch : String) (pr : PullRequest),
      pr ∈ prs → pr.MergeStatus.Stacked = true →
        pr ∈ sortPullRequests ready prs targetBranch) ∧
    sortPullRequests Ready [prTwoPreStacked, prOne] "main"
      = [prOne, prTwoPreStacked] ∧
    prOne.MergeStatus.Stacked = false ∧
    prTwoPreStacked.MergeStatus.Stacked = true := by
  refine ⟨?_, by decide, by decide, by decide⟩
  intro ready prs targetBranch pr hmem hst
  unfold sortPullRequests
  have h0 : sortLoop prs targetBranch 0 = sortSuffix targetBranch prs := by
    rw [sortLoop_eq]
    simp
  rw [h0]
  exact markStacked_mem ready (sortSuffix targetBranch prs) pr
    ((sortSuffix_perm targetBranch prs).mem_iff.mpr hmem) hst

/-- Witness for `sortPullRequests_preserves_stacked`: the pre-stacked
sample entry survives a pass that actually swaps it. -/
theorem sortPullRequests_preserves_stacked_witness :
    prTwoPreStacked ∈ ([prTwoPreStacked, prOne] : List PullRequest) ∧
      prTwoPreStacked.MergeStatus.Stacked = true ∧
      prTwoPreStacked ∈ sortPullRequests Ready [prTwoPreStacked, prOne] "main" :=
  ⟨by decide, by decide,
    sortPullRequests_preserves_stacked.1 Ready [prTwoPreStacked, prOne] "main"
      prTwoPreStacked (by decide) (by decide)⟩

end Spr
